import Mathlib

/-!
# Generalised Morse Wavelets: a verification development

This file embeds the `gmw` library (file `gmw/wavelets.py`) into Lean 4 over the
real numbers and proves properties of the embedded functions.

Modelling conventions:

* Python floats are modelled as real numbers (`ℝ`); `x ** y` on positive bases is
  `Real.rpow`; `np.log` / `np.exp` are `Real.log` / `Real.exp`.
* `scipy.special.loggamma` on a positive real argument is `Real.log (Real.Gamma x)`
  (the standard analytic continuation restricted to the positive axis, which is the
  contract the library relies on: its arguments `k + 1` and `k + r` are positive).
* `scipy.special.eval_genlaguerre n a x` is the generalized Laguerre polynomial
  `L_n^a(x)`, modelled by its standard three-term recurrence (`genLaguerre`).
* The Heaviside mask `H = np.heaviside(aω, 0.5)` together with the NaN→0
  substitution (`wav0[np.isnan(wav0)] = 0`) makes the masked factor `wav0` equal
  to `0` except when both `scale > 0` and the dimensionless angular frequency
  `aω = scale * 2π * f` is positive: for `aω < 0` the exponential is NaN (log of
  a negative number), masked to 0; at `aω = 0` the factor
  `exp(logA + β·log 0) = exp(-∞) = 0` annihilates the value (or, for
  `scale < 0`, `logA` itself is NaN — log of a negative argument — and the NaN
  is masked); for `scale < 0` with `aω > 0` the NaN `logA` again makes `wav0`
  NaN, masked to 0.  However the mask runs *before* the final multiplication by
  `eval_genlaguerre(k, r-1, 2*aω**γ)` on line 78, whose argument is computed
  afresh: when `aω < 0` and `γ` is not an integer, `aω**γ` is NaN, and for
  `k ≥ 1` the Laguerre value is NaN, so the function returns `0 · NaN = NaN`
  (for `k = 0` scipy returns the constant `1.0` without touching the argument).
  `psi_f` is the real number returned in all NaN-free cases (it branches on
  `0 < scale ∧ 0 < aω`, returning the masked value `0` otherwise);
  `psi_fF` is the full scalar float semantics, with `none` standing for the NaN
  produced on the path just described.
* The only statement in the bodies of `psi_f` / `central_freq` that can raise a
  Python exception is the scalar float division by `scale` (`2 / scale`,
  `np.pi * self.gamma / scale`, and `... / scale` in `central_freq`), which raises
  `ZeroDivisionError` exactly when `scale = 0`.  The `Except`-valued wrappers
  `psi_fE` / `central_freqE` record this error behaviour; the plain functions
  model the value computed when no exception occurs (Lean division is total).
-/

noncomputable section

open MeasureTheory Set

/-- Generalized Laguerre polynomial `L_n^α(x)`, by the standard three-term
recurrence `(n+1)·L_{n+1} = (2n+1+α−x)·L_n − (n+α)·L_{n−1}`, with
`L_0 = 1` and `L_1 = 1 + α − x`.  This is the mathematical contract of
`scipy.special.eval_genlaguerre`. -/
def genLaguerre : ℕ → ℝ → ℝ → ℝ
  | 0, _, _ => 1
  | 1, a, x => 1 + a - x
  | n + 2, a, x =>
      ((2 * ((n : ℝ) + 1) + 1 + a - x) * genLaguerre (n + 1) a x
        - ((n : ℝ) + 1 + a) * genLaguerre n a x) / ((n : ℝ) + 2)

/-- The `MorseWavelet` value type: parameters `beta`, `gamma` and the
normalization tag `norm` (the Python class attributes set by `__init__`). -/
structure MorseWavelet where
  beta : ℝ
  gamma : ℝ
  norm : String

/-- Errors raised by the library: `ValueError` at construction (the
"InvalidParameter" taxonomy of the design), Python `ZeroDivisionError` from
scalar float division by zero, and `NotImplementedError` from `psi_t`. -/
inductive GmwError where
  | invalidParameter (msg : String)
  | zeroDivision
  | notImplemented (msg : String)
deriving DecidableEq

/-- `MorseWavelet.__init__`: validates `beta > 0`, `gamma > 0` and
`norm ∈ \x7b'analytic', 'energy'\x7d`, raising `ValueError` otherwise. -/
def MorseWavelet.init (beta gamma : ℝ) (norm : String) : Except GmwError MorseWavelet :=
  if beta ≤ 0 ∨ gamma ≤ 0 then
    Except.error (GmwError.invalidParameter
      "β and γ parameters must be both greater than 0.")
  else if norm = "analytic" ∨ norm = "energy" then
    Except.ok { beta := beta, gamma := gamma, norm := norm }
  else
    Except.error (GmwError.invalidParameter "Norm can only be analytic or energy.")

/-- The exponent ratio `r = (2·β + 1) / γ` computed at the top of `psi_f`. -/
def MorseWavelet.r (w : MorseWavelet) : ℝ := (2 * w.beta + 1) / w.gamma

/-- The log-normalization constant `logA` of `psi_f`:
`0.5·(log(π·γ/scale) + (r+1)·log 2 + logΓ(k+1) − logΓ(k+r))` for the energy
norm, and `log(2/scale) + β/γ·(1 + log(γ/β))` otherwise (analytic). -/
def MorseWavelet.logA (w : MorseWavelet) (scale : ℝ) (k : ℕ) : ℝ :=
  if w.norm = "energy" then
    0.5 * (Real.log (Real.pi * w.gamma / scale)
      + (w.r + 1) * Real.log 2
      + Real.log (Real.Gamma ((k : ℝ) + 1))
      - Real.log (Real.Gamma ((k : ℝ) + w.r)))
  else
    Real.log (2 / scale) + w.beta / w.gamma * (1 + Real.log (w.gamma / w.beta))

/-- `MorseWavelet.psi_f`, the wavelet in the frequency domain, at a single
frequency `f` (the Python function maps this elementwise over `freqs`).
Writing `aω = scale * 2π * f`, the value is
`scale * H(aω) * exp(logA − aω^γ + β·log aω) * L_k^(r−1)(2·aω^γ)`.
When `scale > 0` and `aω > 0` every float sub-expression is an ordinary real
number; in every other case the masked factor `wav0` is `0` (see the header
comment), so the returned value is `0 · L = 0` whenever the Laguerre factor is
a real number.  `psi_f` is that NaN-free value; the cases in which the source
instead returns NaN (through the Laguerre factor, see the header comment) are
recorded by `psi_fF` below. -/
def MorseWavelet.psi_f (w : MorseWavelet) (f : ℝ) (scale : ℝ) (k : ℕ) : ℝ :=
  if 0 < scale ∧ 0 < scale * (2 * Real.pi) * f then
    scale * Real.exp (w.logA scale k
        - (scale * (2 * Real.pi) * f) ^ w.gamma
        + w.beta * Real.log (scale * (2 * Real.pi) * f))
      * genLaguerre k (w.r - 1) (2 * (scale * (2 * Real.pi) * f) ^ w.gamma)
  else 0

open Classical in
/-- Full scalar float semantics of `psi_f` (lines 62-78), with `none` standing
for NaN.  The NaN mask on line 75 runs before the final multiplication by
`eval_genlaguerre(k, r-1, 2*aω**γ)` on line 78: when `aω < 0` and `γ` is not
an integer, `2*aω**γ` is NaN again, and for `k ≥ 1` the Laguerre recurrence
propagates it, so the masked `0` times NaN is NaN.  In every other case the
result is the real number `psi_f` (at `k = 0` scipy's `eval_genlaguerre`
returns the constant `1.0` without evaluating its argument; for integer γ, or
`aω ≥ 0`, the Laguerre argument is an ordinary float). -/
def MorseWavelet.psi_fF (w : MorseWavelet) (f : ℝ) (scale : ℝ) (k : ℕ) :
    Option ℝ :=
  if scale * (2 * Real.pi) * f < 0 ∧ 1 ≤ k ∧ ¬ ∃ n : ℤ, w.gamma = (n : ℝ) then
    none
  else some (w.psi_f f scale k)

/-- `MorseWavelet.central_freq`: `(β/γ)^(1/γ) / scale * 0.5 / π`. -/
def MorseWavelet.central_freq (w : MorseWavelet) (scale : ℝ) : ℝ :=
  (w.beta / w.gamma) ^ (1 / w.gamma) / scale * 0.5 / Real.pi

/-- Call-time behaviour of `psi_f` with a scalar float scale: the body performs
no validation and raises nothing, except that the division by `scale` inside
`logA` (`2 / scale`, resp. `np.pi * self.gamma / scale`) raises
`ZeroDivisionError` when `scale = 0`. -/
def MorseWavelet.psi_fE (w : MorseWavelet) (f : ℝ) (scale : ℝ) (k : ℕ) :
    Except GmwError ℝ :=
  if scale = 0 then Except.error GmwError.zeroDivision
  else Except.ok (w.psi_f f scale k)

/-- Call-time behaviour of `central_freq` with a scalar float scale: no
validation; the division `... / scale` raises `ZeroDivisionError` iff
`scale = 0`. -/
def MorseWavelet.central_freqE (w : MorseWavelet) (scale : ℝ) : Except GmwError ℝ :=
  if scale = 0 then Except.error GmwError.zeroDivision
  else Except.ok (w.central_freq scale)

/-- `MorseWavelet.psi_t` unconditionally raises `NotImplementedError`. -/
def MorseWavelet.psi_t (_w : MorseWavelet) (_length : ℕ) (_scale : ℝ) (_k : ℕ) :
    Except GmwError (List ℝ) :=
  Except.error (GmwError.notImplemented "TODO")

/-- Crop or zero-pad a complex list to length `n`: the semantics of the `n=...`
size parameter of `scipy.fft.fft` and `scipy.fft.ifft`. -/
def resize (x : List ℂ) (n : ℕ) : List ℂ :=
  x.take n ++ List.replicate (n - x.length) 0

/-- `scipy.fft.fftfreq n d`: the standard FFT bin frequencies — 0 and positive
frequencies ascending for the first ⌈n/2⌉ bins, then the negative frequencies,
all scaled by `1/(n·d)`. -/
def fftfreq (n : ℕ) (d : ℝ) : List ℝ :=
  (List.range n).map fun j =>
    if j < (n + 1) / 2 then (j : ℝ) / (n * d) else ((j : ℝ) - n) / (n * d)

/-- Discrete Fourier transform, the mathematical contract of `scipy.fft.fft`:
`X_j = Σ_m x_m · exp(−2πi·j·m/n)`. -/
def dft (x : List ℂ) : List ℂ :=
  (List.range x.length).map fun j : ℕ =>
    ∑ m ∈ Finset.range x.length,
      x.getD m 0 * Complex.exp (-2 * Real.pi * Complex.I * (j : ℂ) * (m : ℂ) / (x.length : ℂ))

/-- Inverse discrete Fourier transform, the contract of `scipy.fft.ifft`:
`x_j = (1/n) · Σ_m X_m · exp(2πi·j·m/n)`. -/
def idft (x : List ℂ) : List ℂ :=
  (List.range x.length).map fun j : ℕ =>
    (∑ m ∈ Finset.range x.length,
      x.getD m 0 * Complex.exp (2 * Real.pi * Complex.I * (j : ℂ) * (m : ℂ) / (x.length : ℂ)))
      / (x.length : ℂ)

/-- FFT-friendly lengths: no prime factor above 11 (the sizes pocketfft handles
without Bluestein padding — contract of `scipy.fft.next_fast_len`). -/
def isFast (m : ℕ) : Prop := ∀ p ∈ m.primeFactors, p ≤ 11

instance isFast_decidable : DecidablePred isFast := fun m =>
  inferInstanceAs (Decidable (∀ p ∈ m.primeFactors, p ≤ 11))

/-- `scipy.fft.next_fast_len n`: the smallest FFT-friendly length that is at
least `n` (a power of two always qualifies, so the search terminates). -/
def nextFastLen (n : ℕ) : ℕ :=
  Nat.find (show ∃ m, n ≤ m ∧ isFast m from
    ⟨2 ^ n, Nat.le_of_lt (Nat.lt_two_pow n), by
      intro p hp
      obtain ⟨hpp, hdvd, -⟩ := Nat.mem_primeFactors.mp hp
      have h2 : p ∣ 2 := hpp.dvd_of_dvd_pow hdvd
      exact le_trans (Nat.le_of_dvd (by norm_num) h2) (by norm_num)⟩)

/-- `MorseWavelet.cwt`: the continuous wavelet transform.  Following the source
line by line: pick the fast FFT length for the signal, compute the FFT bin
frequencies and the padded-signal FFT, evaluate `psi_f` (order 0) at the bins
for each scale, multiply elementwise with the signal FFT, inverse-transform
each product cropped back to the signal length, and pair the rows with the
central frequency of each scale. -/
def MorseWavelet.cwt (w : MorseWavelet) (signal : List ℂ) (scales : List ℝ)
    (dt : ℝ) : List ℝ × List (List ℂ) :=
  let n := signal.length
  let fastLen := nextFastLen n
  let fs := fftfreq fastLen dt
  let fSig := dft (resize signal fastLen)
  let psi := scales.map fun s => fs.map fun f => w.psi_f f s 0
  let W := psi.map fun row =>
    idft (resize (List.zipWith (fun a b => a * b) fSig (row.map Complex.ofReal)) n)
  (scales.map fun s => w.central_freq s, W)

/-- Counterexample to C3: with γ = 3/2 (non-integer), order k = 1, scale 1 and
frequency −1 ≤ 0, the source returns NaN, not 0 — the masked `wav0 = 0` is
multiplied by the Laguerre factor evaluated at the NaN argument `2·aω^γ`
(`aω = −2π < 0`), and `0 · NaN = NaN`. -/
theorem psi_fF_nan_counterexample :
    MorseWavelet.psi_fF ⟨8, 3 / 2, "analytic"⟩ (-1) 1 1 = none := by
  have hc : ¬ ∃ n : ℤ, ((3 : ℝ) / 2) = (n : ℝ) := by
    rintro ⟨n, hn⟩
    have h2 : (3 : ℝ) = 2 * (n : ℝ) := by linarith
    have h3 : (3 : ℤ) = 2 * n := by exact_mod_cast h2
    omega
  unfold MorseWavelet.psi_fF
  rw [if_pos ⟨by nlinarith [Real.pi_pos], le_refl 1, hc⟩]

/-- C3 amended: for every valid spec and scale > 0, at every frequency f ≤ 0
the evaluation returns exactly 0 (never NaN) at order k = 0, at f = 0 for
every order, and for f < 0 at any order whenever γ is an integer; the excluded
case (k ≥ 1, f < 0, non-integer γ) is the NaN of the counterexample. -/
theorem psi_f_zero_nonpos_freq_amended (w : MorseWavelet)
    (hβ : 0 < w.beta) (hγ : 0 < w.gamma) {f scale : ℝ}
    (hs : 0 < scale) (hf : f ≤ 0) (k : ℕ)
    (hk : k = 0 ∨ f = 0 ∨ ∃ n : ℤ, w.gamma = (n : ℝ)) :
    w.psi_fF f scale k = some 0 := by
  have haw : scale * (2 * Real.pi) * f ≤ 0 :=
    mul_nonpos_of_nonneg_of_nonpos (by positivity) hf
  have hmask : w.psi_f f scale k = 0 := by
    unfold MorseWavelet.psi_f
    rw [if_neg]
    intro hcon
    exact absurd hcon.2 (not_lt.mpr haw)
  have hnot : ¬(scale * (2 * Real.pi) * f < 0 ∧ 1 ≤ k
      ∧ ¬ ∃ n : ℤ, w.gamma = (n : ℝ)) := by
    rintro ⟨hneg, hk1, hnint⟩
    rcases hk with hk0 | hf0 | hint
    · omega
    · rw [hf0, mul_zero] at hneg
      exact lt_irrefl 0 hneg
    · exact hnint hint
  unfold MorseWavelet.psi_fF
  rw [if_neg hnot, hmask]

/-- Witness for the C3 amendment: β = 8, γ = 3 (integer), f = −1, scale 1,
order 2. -/
theorem psi_f_zero_nonpos_freq_amended_witness :
    MorseWavelet.psi_fF ⟨8, 3, "analytic"⟩ (-1) 1 2 = some 0 :=
  psi_f_zero_nonpos_freq_amended ⟨8, 3, "analytic"⟩ (by norm_num) (by norm_num)
    (by norm_num) (by norm_num) 2 (Or.inr (Or.inr ⟨3, by norm_num⟩))

/-- C10: for every valid spec (either norm), every scale > 0 and order k = 0,
`psi_f` returns a non-negative real number, strictly positive exactly when the
input frequency is strictly positive. -/
theorem psi_f_nonneg_and_pos_iff (w : MorseWavelet)
    (hβ : 0 < w.beta) (hγ : 0 < w.gamma) {scale : ℝ} (hs : 0 < scale) (f : ℝ) :
    0 ≤ w.psi_f f scale 0 ∧ (0 < w.psi_f f scale 0 ↔ 0 < f) := by
  have h2 : 0 < scale * (2 * Real.pi) := by positivity
  by_cases hf : 0 < f
  · have haw : 0 < scale * (2 * Real.pi) * f := mul_pos h2 hf
    unfold MorseWavelet.psi_f
    rw [if_pos ⟨hs, haw⟩]
    have hL : genLaguerre 0 (w.r - 1) (2 * (scale * (2 * Real.pi) * f) ^ w.gamma) = 1 := rfl
    rw [hL, mul_one]
    refine ⟨by positivity, iff_of_true (by positivity) hf⟩
  · have haw : ¬ 0 < scale * (2 * Real.pi) * f := by
      push_neg at hf ⊢
      exact mul_nonpos_of_nonneg_of_nonpos h2.le hf
    unfold MorseWavelet.psi_f
    rw [if_neg (fun hcon => haw hcon.2)]
    exact ⟨le_refl 0, iff_of_false (lt_irrefl 0) hf⟩

/-- Witness for C10: instantiated at β = 8, γ = 3, energy norm, scale 1, f = 5. -/
theorem psi_f_nonneg_and_pos_iff_witness :
    0 ≤ MorseWavelet.psi_f ⟨8, 3, "energy"⟩ 5 1 0 ∧
      (0 < MorseWavelet.psi_f ⟨8, 3, "energy"⟩ 5 1 0 ↔ 0 < (5 : ℝ)) :=
  psi_f_nonneg_and_pos_iff ⟨8, 3, "energy"⟩ (by norm_num) (by norm_num)
    (by norm_num) 5

/-- C9: for fixed valid β, γ, the central frequency is strictly decreasing in
the scale: for 0 < s1 < s2, `central_freq s2 < central_freq s1`. -/
theorem central_freq_strict_decreasing (w : MorseWavelet)
    (hβ : 0 < w.beta) (hγ : 0 < w.gamma) {s1 s2 : ℝ}
    (h1 : 0 < s1) (h12 : s1 < s2) :
    w.central_freq s2 < w.central_freq s1 := by
  have hC : 0 < (w.beta / w.gamma) ^ (1 / w.gamma) :=
    Real.rpow_pos_of_pos (div_pos hβ hγ) _
  have e : ∀ s : ℝ, w.central_freq s
      = (w.beta / w.gamma) ^ (1 / w.gamma) * 0.5 / Real.pi / s := by
    intro s
    unfold MorseWavelet.central_freq
    ring
  rw [e, e]
  have hpi := Real.pi_pos
  exact div_lt_div_of_pos_left (by positivity) h1 h12

/-- Witness for C9: β = 8, γ = 3, scales 1 < 2. -/
theorem central_freq_strict_decreasing_witness :
    MorseWavelet.central_freq ⟨8, 3, "analytic"⟩ 2
      < MorseWavelet.central_freq ⟨8, 3, "analytic"⟩ 1 :=
  central_freq_strict_decreasing ⟨8, 3, "analytic"⟩ (by norm_num) (by norm_num)
    (by norm_num) (by norm_num)

/-- C5: construction succeeds exactly when β > 0, γ > 0 and the norm tag is
"analytic" or "energy"; every construction failure is an InvalidParameter
(`ValueError`) — in particular for β = 0, γ = 0, β = −1 or an unknown norm. -/
theorem init_validates (beta gamma : ℝ) (norm : String) :
    ((∃ w, MorseWavelet.init beta gamma norm = Except.ok w) ↔
      0 < beta ∧ 0 < gamma ∧ (norm = "analytic" ∨ norm = "energy")) ∧
    ∀ e, MorseWavelet.init beta gamma norm = Except.error e →
      ∃ msg, e = GmwError.invalidParameter msg := by
  unfold MorseWavelet.init
  by_cases h1 : beta ≤ 0 ∨ gamma ≤ 0
  · rw [if_pos h1]
    refine ⟨⟨fun hw => ?_, fun hv => ?_⟩, fun e he => ?_⟩
    · obtain ⟨w, hw⟩ := hw
      exact absurd hw (by simp)
    · rcases h1 with h | h
      · exact absurd hv.1 (not_lt.mpr h)
      · exact absurd hv.2.1 (not_lt.mpr h)
    · cases he
      exact ⟨_, rfl⟩
  · rw [if_neg h1]
    push_neg at h1
    by_cases h2 : norm = "analytic" ∨ norm = "energy"
    · rw [if_pos h2]
      refine ⟨⟨fun _ => ⟨h1.1, h1.2, h2⟩, fun _ => ⟨_, rfl⟩⟩, fun e he => ?_⟩
      exact absurd he (by simp)
    · rw [if_neg h2]
      refine ⟨⟨fun hw => ?_, fun hv => absurd hv.2.2 h2⟩, fun e he => ?_⟩
      · obtain ⟨w, hw⟩ := hw
        exact absurd hw (by simp)
      · cases he
        exact ⟨_, rfl⟩

/-- Witness for C5: constructing with β = 8, γ = 3, norm "analytic" succeeds. -/
theorem init_validates_witness :
    ∃ w, MorseWavelet.init 8 3 "analytic" = Except.ok w :=
  (init_validates 8 3 "analytic").1.mpr ⟨by norm_num, by norm_num, Or.inl rfl⟩

/-- The dimensionless angular frequency at the central frequency is
`(β/γ)^(1/γ)`. -/
theorem aw_central (w : MorseWavelet) (hγ : 0 < w.gamma) {scale : ℝ}
    (hs : 0 < scale) :
    scale * (2 * Real.pi) * w.central_freq scale
      = (w.beta / w.gamma) ^ (1 / w.gamma) := by
  unfold MorseWavelet.central_freq
  have hpi := Real.pi_ne_zero
  field_simp
  ring

/-- C1: with the analytic norm, for any valid β, γ and any scale > 0, the base
wavelet (k = 0) evaluated at the central frequency is exactly 2. -/
theorem psi_f_central_analytic (w : MorseWavelet)
    (hβ : 0 < w.beta) (hγ : 0 < w.gamma) (hn : w.norm = "analytic")
    {scale : ℝ} (hs : 0 < scale) :
    w.psi_f (w.central_freq scale) scale 0 = 2 := by
  have hbg : 0 < w.beta / w.gamma := div_pos hβ hγ
  have hc : 0 < (w.beta / w.gamma) ^ (1 / w.gamma) := Real.rpow_pos_of_pos hbg _
  have haw := aw_central w hγ hs
  unfold MorseWavelet.psi_f
  rw [haw, if_pos ⟨hs, hc⟩]
  have hL : genLaguerre 0 (w.r - 1)
      (2 * ((w.beta / w.gamma) ^ (1 / w.gamma)) ^ w.gamma) = 1 := rfl
  rw [hL, mul_one]
  have hcγ : ((w.beta / w.gamma) ^ (1 / w.gamma)) ^ w.gamma = w.beta / w.gamma := by
    rw [← Real.rpow_mul hbg.le, one_div_mul_cancel hγ.ne', Real.rpow_one]
  have hlogc : Real.log ((w.beta / w.gamma) ^ (1 / w.gamma))
      = 1 / w.gamma * Real.log (w.beta / w.gamma) := Real.log_rpow hbg _
  have hA : w.logA scale 0
      = Real.log (2 / scale) + w.beta / w.gamma * (1 + Real.log (w.gamma / w.beta)) := by
    unfold MorseWavelet.logA
    rw [hn, if_neg (by decide)]
  have hexp : w.logA scale 0
      - ((w.beta / w.gamma) ^ (1 / w.gamma)) ^ w.gamma
      + w.beta * Real.log ((w.beta / w.gamma) ^ (1 / w.gamma))
      = Real.log (2 / scale) := by
    rw [hA, hcγ, hlogc, Real.log_div hγ.ne' hβ.ne', Real.log_div hβ.ne' hγ.ne']
    field_simp
    ring
  rw [hexp, Real.exp_log (by positivity)]
  field_simp

/-- Witness for C1: β = 8, γ = 3, analytic norm, scale 1. -/
theorem psi_f_central_analytic_witness :
    MorseWavelet.psi_f ⟨8, 3, "analytic"⟩
      (MorseWavelet.central_freq ⟨8, 3, "analytic"⟩ 1) 1 0 = 2 :=
  psi_f_central_analytic ⟨8, 3, "analytic"⟩ (by norm_num) (by norm_num) rfl
    (by norm_num)

/-- The map `t ↦ b·log t − t` on positive reals attains its maximum at `t = b`
(consequence of `log x ≤ x − 1`). -/
theorem mul_log_sub_le {b t : ℝ} (hb : 0 < b) (ht : 0 < t) :
    b * Real.log t - t ≤ b * Real.log b - b := by
  have h := Real.log_le_sub_one_of_pos (div_pos ht hb)
  rw [Real.log_div ht.ne' hb.ne'] at h
  have h2 := mul_le_mul_of_nonneg_left h hb.le
  rw [mul_sub] at h2
  have h3 : b * (t / b - 1) = t - b := by field_simp
  rw [h3] at h2
  linarith

/-- Exponent of the rpow at the central frequency collapses:
`((β/γ)^(1/γ))^γ = β/γ`. -/
theorem c_rpow_gamma (w : MorseWavelet) (hβ : 0 < w.beta) (hγ : 0 < w.gamma) :
    ((w.beta / w.gamma) ^ (1 / w.gamma)) ^ w.gamma = w.beta / w.gamma := by
  rw [← Real.rpow_mul (div_pos hβ hγ).le, one_div_mul_cancel hγ.ne', Real.rpow_one]

/-- C4: `central_freq scale` equals `(β/γ)^(1/γ) / scale · 1/(2π)`, and it is
where the base wavelet k = 0 attains its peak magnitude: `|psi_f f scale 0|`
is at most `|psi_f (central_freq scale) scale 0|` for every f (either norm). -/
theorem central_freq_formula_and_peak (w : MorseWavelet)
    (hβ : 0 < w.beta) (hγ : 0 < w.gamma) {scale : ℝ} (hs : 0 < scale) :
    w.central_freq scale
        = (w.beta / w.gamma) ^ (1 / w.gamma) / scale * (1 / (2 * Real.pi)) ∧
      ∀ f : ℝ, |w.psi_f f scale 0| ≤ |w.psi_f (w.central_freq scale) scale 0| := by
  have hbg : 0 < w.beta / w.gamma := div_pos hβ hγ
  have hc : 0 < (w.beta / w.gamma) ^ (1 / w.gamma) := Real.rpow_pos_of_pos hbg _
  have hpeak : w.psi_f (w.central_freq scale) scale 0
      = scale * Real.exp (w.logA scale 0
          - ((w.beta / w.gamma) ^ (1 / w.gamma)) ^ w.gamma
          + w.beta * Real.log ((w.beta / w.gamma) ^ (1 / w.gamma))) := by
    unfold MorseWavelet.psi_f
    rw [aw_central w hγ hs, if_pos ⟨hs, hc⟩]
    rw [show genLaguerre 0 (w.r - 1)
        (2 * ((w.beta / w.gamma) ^ (1 / w.gamma)) ^ w.gamma) = 1 from rfl, mul_one]
  constructor
  · unfold MorseWavelet.central_freq
    ring
  · intro f
    rw [hpeak]
    have hppos : 0 < scale * Real.exp (w.logA scale 0
        - ((w.beta / w.gamma) ^ (1 / w.gamma)) ^ w.gamma
        + w.beta * Real.log ((w.beta / w.gamma) ^ (1 / w.gamma))) := by positivity
    by_cases haw : 0 < scale * (2 * Real.pi) * f
    · have hval : w.psi_f f scale 0
          = scale * Real.exp (w.logA scale 0
              - (scale * (2 * Real.pi) * f) ^ w.gamma
              + w.beta * Real.log (scale * (2 * Real.pi) * f)) := by
        unfold MorseWavelet.psi_f
        rw [if_pos ⟨hs, haw⟩]
        rw [show genLaguerre 0 (w.r - 1)
            (2 * (scale * (2 * Real.pi) * f) ^ w.gamma) = 1 from rfl, mul_one]
      have ht : 0 < (scale * (2 * Real.pi) * f) ^ w.gamma :=
        Real.rpow_pos_of_pos haw _
      have h1 : w.beta * Real.log (scale * (2 * Real.pi) * f)
          = w.beta / w.gamma * Real.log ((scale * (2 * Real.pi) * f) ^ w.gamma) := by
        rw [Real.log_rpow haw]
        field_simp
        ring
      have h3 : w.beta * Real.log ((w.beta / w.gamma) ^ (1 / w.gamma))
          = w.beta / w.gamma * Real.log (w.beta / w.gamma) := by
        rw [Real.log_rpow hbg]
        field_simp
      have hineq : w.beta * Real.log (scale * (2 * Real.pi) * f)
            - (scale * (2 * Real.pi) * f) ^ w.gamma
          ≤ w.beta * Real.log ((w.beta / w.gamma) ^ (1 / w.gamma))
            - ((w.beta / w.gamma) ^ (1 / w.gamma)) ^ w.gamma := by
        rw [h1, h3, c_rpow_gamma w hβ hγ]
        exact mul_log_sub_le hbg ht
      rw [hval, abs_of_pos (by positivity), abs_of_pos hppos]
      exact mul_le_mul_of_nonneg_left (Real.exp_le_exp.mpr (by linarith)) hs.le
    · have hval : w.psi_f f scale 0 = 0 := by
        unfold MorseWavelet.psi_f
        rw [if_neg (fun hcon => haw hcon.2)]
      rw [hval, abs_zero]
      exact abs_nonneg _

/-- Witness for C4: β = 8, γ = 3, scale 1, frequency 3. -/
theorem central_freq_formula_and_peak_witness :
    |MorseWavelet.psi_f ⟨8, 3, "analytic"⟩ 3 1 0|
      ≤ |MorseWavelet.psi_f ⟨8, 3, "analytic"⟩
          (MorseWavelet.central_freq ⟨8, 3, "analytic"⟩ 1) 1 0| :=
  (central_freq_formula_and_peak ⟨8, 3, "analytic"⟩ (by norm_num) (by norm_num)
    (by norm_num)).2 3

/-- Counterexample to C6: calling `psi_f` on a valid spec with the non-positive
scale −1 does not fail — no scale validation exists in `psi_f` — it returns the
ordinary value 0 (the frequency mask fires because `aω = −2π < 0`). -/
theorem psi_fE_negative_scale_returns :
    MorseWavelet.psi_fE ⟨8, 3, "analytic"⟩ 1 (-1) 0 = Except.ok 0 := by
  unfold MorseWavelet.psi_fE
  rw [if_neg (by norm_num)]
  have h0 : MorseWavelet.psi_f ⟨8, 3, "analytic"⟩ 1 (-1) 0 = 0 := by
    unfold MorseWavelet.psi_f
    rw [if_neg]
    rintro ⟨hsp, -⟩
    norm_num at hsp
  rw [h0]

/-- C6 amended: `psi_f` performs no scale validation, so a non-positive scale
does not fail with InvalidParameter.  A negative scale is accepted: the
base-order (k = 0) call returns the masked value 0 at every frequency (the NaN
`logA` makes `wav0` NaN wherever the Heaviside factor is nonzero, and the mask
zeroes it) — never raising and never NaN; scale = 0 fails, but with the float
division-by-zero error, not InvalidParameter. -/
theorem psi_f_no_scale_validation (w : MorseWavelet)
    (hβ : 0 < w.beta) (hγ : 0 < w.gamma) (f : ℝ) :
    (∀ scale : ℝ, scale < 0 →
        w.psi_fE f scale 0 = Except.ok 0 ∧ w.psi_fF f scale 0 = some 0) ∧
      ∀ k : ℕ, w.psi_fE f 0 k = Except.error GmwError.zeroDivision := by
  constructor
  · intro scale hneg
    have h0 : w.psi_f f scale 0 = 0 := by
      unfold MorseWavelet.psi_f
      rw [if_neg]
      rintro ⟨hsp, -⟩
      exact absurd hsp (not_lt.mpr hneg.le)
    refine ⟨?_, ?_⟩
    · unfold MorseWavelet.psi_fE
      rw [if_neg hneg.ne, h0]
    · unfold MorseWavelet.psi_fF
      rw [if_neg, h0]
      rintro ⟨-, hk1, -⟩
      omega
  · intro k
    unfold MorseWavelet.psi_fE
    rw [if_pos rfl]

/-- Witness for the C6 amendment: β = 8, γ = 3, energy norm, f = 2,
scale = −3, order 0. -/
theorem psi_f_no_scale_validation_witness :
    MorseWavelet.psi_fE ⟨8, 3, "energy"⟩ 2 (-3) 0 = Except.ok 0 ∧
      MorseWavelet.psi_fF ⟨8, 3, "energy"⟩ 2 (-3) 0 = some 0 :=
  (psi_f_no_scale_validation ⟨8, 3, "energy"⟩ (by norm_num) (by norm_num) 2).1
    (-3) (by norm_num)

/-- Counterexample to C7: calling `psi_f` on a valid spec with scale = 0 does
raise — the scalar float division by `scale` in `logA` is a
`ZeroDivisionError` — so evaluate is not error-free for every scale. -/
theorem psi_fE_zero_scale_error :
    MorseWavelet.psi_fE ⟨8, 3, "analytic"⟩ 1 0 0
      = Except.error GmwError.zeroDivision := by
  unfold MorseWavelet.psi_fE
  rw [if_pos rfl]

/-- C7 amended: given a valid spec, `psi_f` and `central_freq` never raise for
any frequency, any order and any nonzero scale: both return their computed
value.  (Only scale = 0 raises, and then a `ZeroDivisionError`, not a
validation error.) -/
theorem evaluate_no_error_nonzero_scale (w : MorseWavelet)
    (hβ : 0 < w.beta) (hγ : 0 < w.gamma) (f : ℝ) {scale : ℝ} (hs : scale ≠ 0)
    (k : ℕ) :
    w.psi_fE f scale k = Except.ok (w.psi_f f scale k) ∧
      w.central_freqE scale = Except.ok (w.central_freq scale) := by
  unfold MorseWavelet.psi_fE MorseWavelet.central_freqE
  rw [if_neg hs, if_neg hs]
  exact ⟨rfl, rfl⟩

/-- Witness for the C7 amendment: β = 8, γ = 3, f = −2, scale = 7, order 3. -/
theorem evaluate_no_error_nonzero_scale_witness :
    MorseWavelet.psi_fE ⟨8, 3, "analytic"⟩ (-2) 7 3
        = Except.ok (MorseWavelet.psi_f ⟨8, 3, "analytic"⟩ (-2) 7 3) ∧
      MorseWavelet.central_freqE ⟨8, 3, "analytic"⟩ 7
        = Except.ok (MorseWavelet.central_freq ⟨8, 3, "analytic"⟩ 7) :=
  evaluate_no_error_nonzero_scale ⟨8, 3, "analytic"⟩ (by norm_num) (by norm_num)
    (-2) (by norm_num) 3

/-- C2: with the energy norm, for any valid β, γ and any scale > 0, the
integral of the squared base wavelet (k = 0) over all positive frequencies is
exactly 1 (unit L2 norm in frequency space). -/
theorem energy_norm_integral (w : MorseWavelet)
    (hβ : 0 < w.beta) (hγ : 0 < w.gamma) (hn : w.norm = "energy")
    {scale : ℝ} (hs : 0 < scale) :
    ∫ f in Ioi (0 : ℝ), (w.psi_f f scale 0) ^ 2 = 1 := by
  have hr : 0 < w.r := div_pos (by linarith) hγ
  have hb : 0 < scale * (2 * Real.pi) := by positivity
  have hΓ : 0 < Real.Gamma w.r := Real.Gamma_pos_of_pos hr
  -- pointwise form of the squared integrand on positive frequencies
  have key : ∀ f ∈ Ioi (0 : ℝ), (w.psi_f f scale 0) ^ 2
      = scale ^ 2 * Real.exp (2 * w.logA scale 0) *
          ((scale * (2 * Real.pi) * f) ^ (2 * w.beta)
            * Real.exp (-(2 : ℝ) * (scale * (2 * Real.pi) * f) ^ w.gamma)) := by
    intro f hf
    rw [mem_Ioi] at hf
    have hu : 0 < scale * (2 * Real.pi) * f := mul_pos hb hf
    unfold MorseWavelet.psi_f
    rw [if_pos ⟨hs, hu⟩, show genLaguerre 0 (w.r - 1)
        (2 * (scale * (2 * Real.pi) * f) ^ w.gamma) = 1 from rfl, mul_one]
    rw [mul_pow, ← Real.exp_nat_mul, Real.rpow_def_of_pos hu (2 * w.beta),
      mul_assoc (scale ^ 2) (Real.exp (2 * w.logA scale 0)), ← Real.exp_add,
      ← Real.exp_add]
    congr 1
    rw [Real.exp_eq_exp]
    push_cast
    ring
  -- the normalization constant in closed form
  have hA : Real.exp (2 * w.logA scale 0)
      = Real.pi * w.gamma / scale * (2 : ℝ) ^ (w.r + 1) / Real.Gamma w.r := by
    unfold MorseWavelet.logA
    rw [hn, if_pos rfl]
    have collapse : (2 : ℝ) * (0.5 * (Real.log (Real.pi * w.gamma / scale)
        + (w.r + 1) * Real.log 2
        + Real.log (Real.Gamma (((0 : ℕ) : ℝ) + 1))
        - Real.log (Real.Gamma (((0 : ℕ) : ℝ) + w.r))))
        = Real.log (Real.pi * w.gamma / scale)
          + (w.r + 1) * Real.log 2
          + Real.log (Real.Gamma 1)
          - Real.log (Real.Gamma w.r) := by
      push_cast
      ring_nf
    rw [collapse, Real.Gamma_one, Real.log_one, add_zero, Real.exp_sub,
      Real.exp_add, Real.exp_log (by positivity), mul_comm (w.r + 1) (Real.log 2),
      ← Real.rpow_def_of_pos (by norm_num : (0 : ℝ) < 2),
      Real.exp_log hΓ]
  calc ∫ f in Ioi (0 : ℝ), (w.psi_f f scale 0) ^ 2
      = ∫ f in Ioi (0 : ℝ), scale ^ 2 * Real.exp (2 * w.logA scale 0) *
          ((scale * (2 * Real.pi) * f) ^ (2 * w.beta)
            * Real.exp (-(2 : ℝ) * (scale * (2 * Real.pi) * f) ^ w.gamma)) :=
        setIntegral_congr_fun measurableSet_Ioi (fun x hx => key x hx)
    _ = (scale * (2 * Real.pi))⁻¹ •
          ∫ u in Ioi (scale * (2 * Real.pi) * 0), scale ^ 2 * Real.exp (2 * w.logA scale 0) *
            (u ^ (2 * w.beta) * Real.exp (-(2 : ℝ) * u ^ w.gamma)) :=
        integral_comp_mul_left_Ioi
          (fun u => scale ^ 2 * Real.exp (2 * w.logA scale 0) *
            (u ^ (2 * w.beta) * Real.exp (-(2 : ℝ) * u ^ w.gamma))) 0 hb
    _ = (scale * (2 * Real.pi))⁻¹ * (scale ^ 2 * Real.exp (2 * w.logA scale 0) *
          ∫ u in Ioi (0 : ℝ), u ^ (2 * w.beta) * Real.exp (-(2 : ℝ) * u ^ w.gamma)) := by
        rw [mul_zero, smul_eq_mul, integral_mul_left]
    _ = (scale * (2 * Real.pi))⁻¹ * (scale ^ 2 * Real.exp (2 * w.logA scale 0) *
          ((2 : ℝ) ^ (-(2 * w.beta + 1) / w.gamma) * (1 / w.gamma)
            * Real.Gamma ((2 * w.beta + 1) / w.gamma))) := by
        rw [integral_rpow_mul_exp_neg_mul_rpow hγ
          (by linarith : (-1 : ℝ) < 2 * w.beta) (by norm_num : (0 : ℝ) < 2)]
    _ = 1 := by
        rw [hA, neg_div, show (2 * w.beta + 1) / w.gamma = w.r from rfl]
        have hXY : (2 : ℝ) ^ (w.r + 1) * (2 : ℝ) ^ (-w.r) = 2 := by
          rw [← Real.rpow_add (by norm_num : (0 : ℝ) < 2),
            show w.r + 1 + -w.r = 1 by ring, Real.rpow_one]
        have step : (scale * (2 * Real.pi))⁻¹ *
            (scale ^ 2 * (Real.pi * w.gamma / scale * (2 : ℝ) ^ (w.r + 1) / Real.Gamma w.r) *
              ((2 : ℝ) ^ (-w.r) * (1 / w.gamma) * Real.Gamma w.r))
            = (scale * (2 * Real.pi))⁻¹ *
            (scale ^ 2 * (Real.pi * w.gamma / scale
                * ((2 : ℝ) ^ (w.r + 1) * (2 : ℝ) ^ (-w.r)) / Real.Gamma w.r) *
              ((1 / w.gamma) * Real.Gamma w.r)) := by ring
        rw [step, hXY]
        have h1 : scale ≠ 0 := hs.ne'
        have h2 : w.gamma ≠ 0 := hγ.ne'
        have h3 : Real.Gamma w.r ≠ 0 := hΓ.ne'
        have h4 : Real.pi ≠ 0 := Real.pi_ne_zero
        field_simp
        ring

/-- Witness for C2: β = 8, γ = 3, energy norm, scale 1. -/
theorem energy_norm_integral_witness :
    ∫ f in Ioi (0 : ℝ), (MorseWavelet.psi_f ⟨8, 3, "energy"⟩ f 1 0) ^ 2 = 1 :=
  energy_norm_integral ⟨8, 3, "energy"⟩ (by norm_num) (by norm_num) rfl
    (by norm_num)

/-- Length of `resize` is the requested length. -/
theorem resize_length (x : List ℂ) (n : ℕ) : (resize x n).length = n := by
  simp [resize]
  omega

/-- `idft` preserves length. -/
theorem idft_length (x : List ℂ) : (idft x).length = x.length := by
  unfold idft
  rw [List.length_map, List.length_range]

/-- C8: for every valid spec, non-empty signal and non-empty positive scales,
`cwt` returns a coefficient array with `len scales` rows of `len signal`
entries each, and a central-frequency list of length `len scales`. -/
theorem cwt_shape (w : MorseWavelet) (hβ : 0 < w.beta) (hγ : 0 < w.gamma)
    {signal : List ℂ} {scales : List ℝ} (dt : ℝ)
    (hsig : signal ≠ []) (hsc : scales ≠ []) (hpos : ∀ s ∈ scales, 0 < s) :
    (w.cwt signal scales dt).1.length = scales.length ∧
      (w.cwt signal scales dt).2.length = scales.length ∧
      ∀ row ∈ (w.cwt signal scales dt).2, row.length = signal.length := by
  refine ⟨by simp [MorseWavelet.cwt], by simp [MorseWavelet.cwt], ?_⟩
  intro row hrow
  simp only [MorseWavelet.cwt, List.map_map, List.mem_map, Function.comp] at hrow
  obtain ⟨s, hs, rfl⟩ := hrow
  rw [idft_length, resize_length]

/-- Witness for C8: β = 8, γ = 3, signal `[1]`, scales `[1]`, dt = 1. -/
theorem cwt_shape_witness :
    (MorseWavelet.cwt ⟨8, 3, "analytic"⟩ [1] [(1 : ℝ)] 1).1.length
        = [(1 : ℝ)].length ∧
      (MorseWavelet.cwt ⟨8, 3, "analytic"⟩ [1] [(1 : ℝ)] 1).2.length
        = [(1 : ℝ)].length ∧
      ∀ row ∈ (MorseWavelet.cwt ⟨8, 3, "analytic"⟩ [1] [(1 : ℝ)] 1).2,
        row.length = ([1] : List ℂ).length :=
  cwt_shape ⟨8, 3, "analytic"⟩ (by norm_num) (by norm_num) 1 (by simp) (by simp)
    (by
      intro s hs
      rw [List.mem_singleton] at hs
      rw [hs]
      norm_num)

end
